import Mathlib

/-!
Shallow embedding of the split engine of this repository
(`src/infrastructure/cpp_core/text_engine.cpp`).  The single exported
operation is

  std::vector<std::string> split_by_delimiter(const std::string& text,
                                              const std::string& delimiter)

whose body is a scan loop:

  while ((end = text.find(delimiter, start)) != std::string::npos) {
      result.push_back(text.substr(start, end - start));
      start = end + delimiter.length();
  }
  result.push_back(text.substr(start));

Strings are modelled as lists of characters; `std::string::find` as the
least matching position at or after the start of the search; the scan
loop with explicit fuel (one unit per iteration, `none` meaning the fuel
was exhausted before the loop finished), because for an empty delimiter
the loop genuinely never advances.  The top-level function runs the loop
with fuel `text.length + 1`, which the termination theorem below shows is
sufficient for every non-empty delimiter.

Specification-side notions (joining with the delimiter interposed, the
greedy non-overlapping occurrence count, literal substring occurrence)
are defined separately from the code and related to it by the theorems.
-/

namespace AutoTextETL

/-- Strings are modelled byte/codepoint-exactly as lists of characters. -/
abbrev Str := List Char

/-- Whether `pat` occurs literally in `t` at position `i`: the match
condition used by `std::string::find` (a full copy of `pat` must fit and
coincide with the characters of `t` starting at `i`). -/
def matchAt (t pat : Str) (i : Nat) : Bool :=
  decide (i + pat.length ≤ t.length) && decide ((t.drop i).take pat.length = pat)

/-- Left-to-right scan for the first position `≥ s` at which `pat` matches,
inspecting one candidate position per unit of fuel. -/
def findAux (t pat : Str) : Nat → Nat → Option Nat
  | 0, _ => none
  | fuel + 1, s =>
    if s ≤ t.length then
      if matchAt t pat s then some s else findAux t pat fuel (s + 1)
    else none

/-- Model of `t.find(pat, s)` for `std::string`: the least position `i ≥ s`
at which `pat` occurs in `t`, and `none` for `npos`.  The scan inspects at
most the positions `s, s + 1, …, t.length`, hence fuel `t.length + 1 - s`
makes `findAux` run to completion. -/
def find (t pat : Str) (s : Nat) : Option Nat :=
  findAux t pat (t.length + 1 - s) s

/-- Model of `t.substr(pos, len)`. -/
def substr (t : Str) (pos len : Nat) : Str := (t.drop pos).take len

/-- Model of the one-argument `t.substr(pos)`. -/
def substrFrom (t : Str) (pos : Nat) : Str := t.drop pos

/-- The scan loop of `split_by_delimiter`, one unit of fuel per iteration.
`none` means the fuel ran out while the loop was still running.  Each
iteration looks for the next delimiter occurrence from `start`; on a hit at
`e` it emits `text.substr(start, e - start)` and continues from
`e + delimiter.length`; on a miss it emits the final `text.substr(start)`. -/
def splitLoop (text delimiter : Str) : Nat → Nat → Option (List Str)
  | 0, _ => none
  | fuel + 1, start =>
    match find text delimiter start with
    | some e =>
        (splitLoop text delimiter fuel (e + delimiter.length)).map
          (fun rest => substr text start (e - start) :: rest)
    | none => some [substrFrom text start]

/-- Model of `split_by_delimiter(text, delimiter)`.  The loop is run with
fuel `text.length + 1`; the termination theorem shows this is enough
whenever the delimiter is non-empty, and the empty-delimiter theorem shows
no amount of fuel is enough when it is empty. -/
def split_by_delimiter (text delimiter : Str) : Option (List Str) :=
  splitLoop text delimiter (text.length + 1) 0

/-- Specification-side join: concatenate the segments with the delimiter
interposed between consecutive elements. -/
def joinWith (delimiter : Str) : List Str → Str
  | [] => []
  | [s] => s
  | s :: t :: rest => s ++ delimiter ++ joinWith delimiter (t :: rest)

/-- Greedy scan counting non-overlapping delimiter occurrences, one unit of
fuel per character position inspected. -/
def countOccAux (delimiter : Str) : Nat → Str → Nat
  | 0, _ => 0
  | fuel + 1, t =>
    match t with
    | [] => 0
    | c :: rest =>
      if 0 < delimiter.length ∧ (c :: rest).take delimiter.length = delimiter then
        1 + countOccAux delimiter fuel ((c :: rest).drop delimiter.length)
      else
        countOccAux delimiter fuel rest

/-- Specification-side count of the non-overlapping occurrences of
`delimiter` in `t`, scanning left to right and resuming each search
immediately after the previous match. -/
def countOcc (delimiter t : Str) : Nat := countOccAux delimiter t.length t

/-- Unfolded characterisation of a match. -/
theorem matchAt_true_iff (t p : Str) (i : Nat) :
    matchAt t p i = true ↔ i + p.length ≤ t.length ∧ (t.drop i).take p.length = p := by
  simp [matchAt]

/-- Positions beyond the end of the string never match. -/
theorem matchAt_false_of_lt (t p : Str) (i : Nat) (h : t.length < i) :
    matchAt t p i = false := by
  cases h2 : matchAt t p i with
  | false => rfl
  | true => exact absurd ((matchAt_true_iff t p i).mp h2).1 (by omega)

/-- Soundness of the scan: a returned position is at or after the start of
the search, matches, and is the least such position. -/
theorem findAux_some (t p : Str) :
    ∀ fuel s e, findAux t p fuel s = some e →
      s ≤ e ∧ matchAt t p e = true ∧ ∀ i, s ≤ i → i < e → matchAt t p i = false := by
  intro fuel
  induction fuel with
  | zero => intro s e h; simp [findAux] at h
  | succ fuel ih =>
    intro s e h
    simp only [findAux] at h
    by_cases hs : s ≤ t.length
    · rw [if_pos hs] at h
      by_cases hm : matchAt t p s = true
      · rw [if_pos hm] at h
        injection h with h
        subst h
        exact ⟨Nat.le_refl s, hm, fun i h1 h2 => absurd h1 (by omega)⟩
      · rw [if_neg hm] at h
        obtain ⟨h1, h2, h3⟩ := ih (s + 1) e h
        refine ⟨by omega, h2, fun i hi1 hi2 => ?_⟩
        rcases Nat.eq_or_lt_of_le hi1 with heq | hlt
        · subst heq
          exact Bool.eq_false_iff.mpr hm
        · exact h3 i (by omega) hi2
    · rw [if_neg hs] at h
      cases h

/-- Completeness of the scan, given enough fuel: if it returns `none`, no
position at or after the start of the search matches. -/
theorem findAux_none (t p : Str) :
    ∀ fuel s, t.length + 1 ≤ fuel + s → findAux t p fuel s = none →
      ∀ i, s ≤ i → matchAt t p i = false := by
  intro fuel
  induction fuel with
  | zero =>
    intro s hfuel _ i hi
    exact matchAt_false_of_lt t p i (by omega)
  | succ fuel ih =>
    intro s hfuel h i hi
    simp only [findAux] at h
    by_cases hs : s ≤ t.length
    · rw [if_pos hs] at h
      by_cases hm : matchAt t p s = true
      · rw [if_pos hm] at h; cases h
      · rw [if_neg hm] at h
        rcases Nat.eq_or_lt_of_le hi with heq | hlt
        · subst heq
          exact Bool.eq_false_iff.mpr hm
        · exact ih (s + 1) (by omega) h i (by omega)
    · exact matchAt_false_of_lt t p i (by omega)

/-- The scan returns `none` when no position at or after the start of the
search matches. -/
theorem findAux_none_intro (t p : Str) :
    ∀ fuel s, (∀ i, s ≤ i → matchAt t p i = false) → findAux t p fuel s = none := by
  intro fuel
  induction fuel with
  | zero => intro s _; rfl
  | succ fuel ih =>
    intro s hall
    have h0 : matchAt t p s = false := hall s (Nat.le_refl s)
    simp only [findAux]
    by_cases hs : s ≤ t.length
    · simp only [if_pos hs, h0, Bool.false_eq_true, if_false]
      exact ih (s + 1) fun i hi => hall i (by omega)
    · simp only [if_neg hs]

/-- Soundness of `find`. -/
theorem find_some (t p : Str) (s e : Nat) (h : find t p s = some e) :
    s ≤ e ∧ matchAt t p e = true ∧ ∀ i, s ≤ i → i < e → matchAt t p i = false :=
  findAux_some t p _ s e h

/-- Completeness of `find`: its fuel always suffices for the scan. -/
theorem find_none (t p : Str) (s : Nat) (h : find t p s = none) :
    ∀ i, s ≤ i → matchAt t p i = false :=
  findAux_none t p (t.length + 1 - s) s (by omega) h

/-- `find` misses exactly when nothing matches at or after the search start. -/
theorem find_none_intro (t p : Str) (s : Nat)
    (hall : ∀ i, s ≤ i → matchAt t p i = false) : find t p s = none :=
  findAux_none_intro t p _ s hall

/-- A match witnesses a literal substring occurrence. -/
theorem infix_of_matchAt (u p : Str) (j : Nat) (h : matchAt u p j = true) :
    p <:+: u := by
  obtain ⟨h1, h2⟩ := (matchAt_true_iff u p j).mp h
  refine ⟨u.take j, (u.drop j).drop p.length, ?_⟩
  rw [List.append_assoc]
  calc u.take j ++ (p ++ (u.drop j).drop p.length)
      = u.take j ++ ((u.drop j).take p.length ++ (u.drop j).drop p.length) := by rw [h2]
    _ = u.take j ++ u.drop j := by rw [List.take_append_drop]
    _ = u := List.take_append_drop j u

/-- A literal substring occurrence yields a match at some position. -/
theorem matchAt_of_infix (u p : Str) (h : p <:+: u) :
    ∃ j, matchAt u p j = true := by
  obtain ⟨l, r, hl⟩ := h
  refine ⟨l.length, (matchAt_true_iff u p l.length).mpr ⟨?_, ?_⟩⟩
  · rw [← hl]
    simp [List.length_append]
  · rw [← hl, List.append_assoc, List.drop_left, List.take_left]

/-- A match inside a prefix (`take`) is a match of the whole list, landing
entirely within the taken region. -/
theorem matchAt_take (l p : Str) (n j : Nat) (h : matchAt (l.take n) p j = true) :
    matchAt l p j = true ∧ j + p.length ≤ n := by
  obtain ⟨h1, h2⟩ := (matchAt_true_iff _ p j).mp h
  rw [List.length_take] at h1
  have hn : j + p.length ≤ n := by omega
  have hl : j + p.length ≤ l.length := by omega
  refine ⟨(matchAt_true_iff l p j).mpr ⟨hl, ?_⟩, hn⟩
  rw [List.drop_take, List.take_take] at h2
  rwa [Nat.min_eq_left (by omega)] at h2

/-- A match inside a `drop` is a match of the whole list, shifted. -/
theorem matchAt_drop (t p : Str) (s j : Nat) (hp : p ≠ [])
    (h : matchAt (t.drop s) p j = true) : matchAt t p (s + j) = true := by
  obtain ⟨h1, h2⟩ := (matchAt_true_iff _ p j).mp h
  rw [List.length_drop] at h1
  have hp1 : 0 < p.length := List.length_pos.mpr hp
  refine (matchAt_true_iff t p (s + j)).mpr ⟨by omega, ?_⟩
  rw [List.drop_drop] at h2
  exact h2

/-- No segment emitted before a least match position contains the
delimiter: an occurrence inside `text.substr(start, e - start)` would be a
match of `text` strictly before `e` and at or after `start`. -/
theorem substr_no_infix (t p : Str) (s e : Nat) (hp : p ≠ []) (hse : s ≤ e)
    (hmin : ∀ i, s ≤ i → i < e → matchAt t p i = false) :
    ¬ p <:+: substr t s (e - s) := by
  intro hinf
  obtain ⟨j, hj⟩ := matchAt_of_infix _ p hinf
  rw [substr] at hj
  obtain ⟨hj1, hj2⟩ := matchAt_take (t.drop s) p (e - s) j hj
  have hm : matchAt t p (s + j) = true := matchAt_drop t p s j hp hj1
  have hp1 : 0 < p.length := List.length_pos.mpr hp
  rw [hmin (s + j) (by omega) (by omega)] at hm
  exact Bool.false_ne_true hm

/-- The final segment `text.substr(start)` contains no delimiter occurrence
when nothing matches at or after `start`. -/
theorem substrFrom_no_infix (t p : Str) (s : Nat) (hp : p ≠ [])
    (hnone : ∀ i, s ≤ i → matchAt t p i = false) :
    ¬ p <:+: substrFrom t s := by
  intro hinf
  obtain ⟨j, hj⟩ := matchAt_of_infix _ p hinf
  rw [substrFrom] at hj
  have hm : matchAt t p (s + j) = true := matchAt_drop t p s j hp hj
  rw [hnone (s + j) (by omega)] at hm
  exact Bool.false_ne_true hm

/-- The greedy occurrence scan is insensitive to its fuel, as long as the
fuel covers the length of the scanned string. -/
theorem countOccAux_congr (p : Str) :
    ∀ fuel fuel' t, t.length ≤ fuel → t.length ≤ fuel' →
      countOccAux p fuel t = countOccAux p fuel' t := by
  intro fuel
  induction fuel with
  | zero =>
    intro fuel' t h _
    have ht : t = [] := by
      cases t with
      | nil => rfl
      | cons c r => simp at h
    subst ht
    cases fuel' with
    | zero => rfl
    | succ f => rfl
  | succ fuel ih =>
    intro fuel' t h h'
    cases t with
    | nil =>
      cases fuel' with
      | zero => rfl
      | succ f => rfl
    | cons c rest =>
      cases fuel' with
      | zero => simp at h'
      | succ f =>
        simp only [countOccAux]
        simp only [List.length_cons] at h h'
        by_cases hg : 0 < p.length ∧ (c :: rest).take p.length = p
        · rw [if_pos hg, if_pos hg]
          have hlen : ((c :: rest).drop p.length).length ≤ fuel := by
            rw [List.length_drop, List.length_cons]
            omega
          have hlen' : ((c :: rest).drop p.length).length ≤ f := by
            rw [List.length_drop, List.length_cons]
            omega
          rw [ih f _ hlen hlen']
        · rw [if_neg hg, if_neg hg]
          exact ih f rest (by omega) (by omega)

/-- The greedy count of occurrences in the empty string. -/
theorem countOcc_nil (p : Str) : countOcc p [] = 0 := rfl

/-- One-step unfolding of the greedy occurrence count. -/
theorem countOcc_cons (p : Str) (c : Char) (rest : Str) :
    countOcc p (c :: rest) =
      if 0 < p.length ∧ (c :: rest).take p.length = p then
        1 + countOcc p ((c :: rest).drop p.length)
      else countOcc p rest := by
  show countOccAux p (rest.length + 1) (c :: rest) = _
  simp only [countOccAux]
  by_cases hg : 0 < p.length ∧ (c :: rest).take p.length = p
  · rw [if_pos hg, if_pos hg]
    have hlen : ((c :: rest).drop p.length).length ≤ rest.length := by
      rw [List.length_drop, List.length_cons]
      omega
    rw [countOccAux_congr p rest.length ((c :: rest).drop p.length).length _ hlen (Nat.le_refl _)]
    rfl
  · rw [if_neg hg, if_neg hg]
    rfl

/-- When a position does not start a match, the greedy count is unchanged by
stepping one character forward. -/
theorem countOcc_drop_step (t p : Str) (s : Nat) (_hp : p ≠ []) (hs : s < t.length)
    (hm : matchAt t p s = false) :
    countOcc p (t.drop s) = countOcc p (t.drop (s + 1)) := by
  have hcons := List.drop_eq_getElem_cons (show s < t.length from hs)
  rw [hcons, countOcc_cons, if_neg ?hg]
  case hg =>
    intro ⟨hp1, htake⟩
    rw [← hcons] at htake
    have hlen : p.length ≤ t.length - s := by
      have := congrArg List.length htake
      rw [List.length_take, List.length_drop] at this
      omega
    have : matchAt t p s = true :=
      (matchAt_true_iff t p s).mpr ⟨by omega, htake⟩
    rw [hm] at this
    exact Bool.false_ne_true this

/-- When a position starts a match, the greedy count counts it and resumes
after the matched copy of the pattern. -/
theorem countOcc_drop_head (t p : Str) (hp : p ≠ []) (e : Nat)
    (hm : matchAt t p e = true) :
    countOcc p (t.drop e) = 1 + countOcc p (t.drop (e + p.length)) := by
  obtain ⟨h1, h2⟩ := (matchAt_true_iff t p e).mp hm
  have hp1 : 0 < p.length := List.length_pos.mpr hp
  have hlt : e < t.length := by omega
  have hcons := List.drop_eq_getElem_cons (show e < t.length from hlt)
  rw [hcons, countOcc_cons, if_pos ⟨hp1, by rw [← hcons]; exact h2⟩]
  congr 1
  rw [← hcons, List.drop_drop]

/-- A region free of matches contributes nothing to the greedy count. -/
theorem countOcc_drop_zero (t p : Str) (hp : p ≠ []) :
    ∀ d s, t.length - s ≤ d → (∀ i, s ≤ i → matchAt t p i = false) →
      countOcc p (t.drop s) = 0 := by
  intro d
  induction d with
  | zero =>
    intro s hd _
    have ht : t.drop s = [] := by
      apply List.eq_nil_of_length_eq_zero
      rw [List.length_drop]
      omega
    rw [ht, countOcc_nil]
  | succ d ih =>
    intro s hd hall
    by_cases hs : t.length ≤ s
    · have ht : t.drop s = [] := by
        apply List.eq_nil_of_length_eq_zero
        rw [List.length_drop]
        omega
      rw [ht, countOcc_nil]
    · rw [countOcc_drop_step t p s hp (by omega) (hall s (Nat.le_refl s))]
      exact ih (s + 1) (by omega) fun i hi => hall i (by omega)

/-- Greedy count across the least match at or after `s`: one occurrence at
`e`, then whatever follows the matched copy. -/
theorem countOcc_drop_split (t p : Str) (hp : p ≠ []) :
    ∀ d s e, e - s ≤ d → s ≤ e → matchAt t p e = true →
      (∀ i, s ≤ i → i < e → matchAt t p i = false) →
      countOcc p (t.drop s) = 1 + countOcc p (t.drop (e + p.length)) := by
  intro d
  induction d with
  | zero =>
    intro s e hd hse hm _
    have hes : s = e := by omega
    subst hes
    exact countOcc_drop_head t p hp s hm
  | succ d ih =>
    intro s e hd hse hm hmin
    rcases Nat.eq_or_lt_of_le hse with heq | hlt
    · subst heq
      exact countOcc_drop_head t p hp s hm
    · have hsl : s < t.length := by
        have := ((matchAt_true_iff t p e).mp hm).1
        have hp1 : 0 < p.length := List.length_pos.mpr hp
        omega
      rw [countOcc_drop_step t p s hp hsl (hmin s (Nat.le_refl s) hlt)]
      exact ih (s + 1) e (by omega) (by omega) hm fun i hi1 hi2 => hmin i (by omega) hi2

/-- Decomposition of the tail of the text at a match: the emitted segment,
then the delimiter, then the rest of the text after the matched copy. -/
theorem drop_decomp (t p : Str) (s e : Nat) (hse : s ≤ e)
    (hm : matchAt t p e = true) :
    t.drop s = substr t s (e - s) ++ (p ++ t.drop (e + p.length)) := by
  have k1 := List.drop_take_append_drop t s (e - s)
  rw [show s + (e - s) = e by omega] at k1
  have k2 := List.drop_take_append_drop t e p.length
  rw [((matchAt_true_iff t p e).mp hm).2] at k2
  show t.drop s = (t.drop s).take (e - s) ++ (p ++ t.drop (e + p.length))
  calc t.drop s = (t.drop s).take (e - s) ++ t.drop e := k1.symm
    _ = (t.drop s).take (e - s) ++ (p ++ t.drop (e + p.length)) := by rw [k2]

/-- Main invariant of the scan loop: for a non-empty delimiter and enough
fuel, the loop terminates and returns a non-empty list of segments whose
join with the delimiter is the unscanned tail of the text, whose count is
one more than the greedy occurrence count of that tail, and none of which
contains the delimiter. -/
theorem splitLoop_spec (text delimiter : Str) (hd : delimiter ≠ []) :
    ∀ fuel start, start ≤ text.length → text.length - start < fuel →
      ∃ segs, splitLoop text delimiter fuel start = some segs ∧
        segs ≠ [] ∧
        joinWith delimiter segs = text.drop start ∧
        segs.length = 1 + countOcc delimiter (text.drop start) ∧
        ∀ s ∈ segs, ¬ delimiter <:+: s := by
  have hp1 : 0 < delimiter.length := List.length_pos.mpr hd
  intro fuel
  induction fuel with
  | zero => intro start h1 h2; omega
  | succ fuel ih =>
    intro start h1 h2
    cases hf : find text delimiter start with
    | none =>
      have hnone := find_none text delimiter start hf
      refine ⟨[substrFrom text start], ?_, ?_, ?_, ?_, ?_⟩
      · simp [splitLoop, hf]
      · simp
      · simp [joinWith, substrFrom]
      · rw [List.length_singleton,
          countOcc_drop_zero text delimiter hd (text.length - start) start (Nat.le_refl _) hnone]
      · intro s hs
        rw [List.mem_singleton] at hs
        subst hs
        exact substrFrom_no_infix text delimiter start hd hnone
    | some e =>
      obtain ⟨hse, hm, hmin⟩ := find_some text delimiter start e hf
      have hde : e + delimiter.length ≤ text.length := ((matchAt_true_iff _ _ _).mp hm).1
      obtain ⟨rest, hr1, hr2, hr3, hr4, hr5⟩ :=
        ih (e + delimiter.length) (by omega) (by omega)
      refine ⟨substr text start (e - start) :: rest, ?_, ?_, ?_, ?_, ?_⟩
      · simp [splitLoop, hf, hr1]
      · simp
      · cases rest with
        | nil => exact absurd rfl hr2
        | cons r rs =>
          simp only [joinWith]
          rw [hr3, List.append_assoc, ← drop_decomp text delimiter start e hse hm]
      · rw [List.length_cons, hr4,
          countOcc_drop_split text delimiter hd (e - start) start e (Nat.le_refl _) hse hm hmin]
        omega
      · intro s hs
        rw [List.mem_cons] at hs
        rcases hs with hseg | hmem
        · subst hseg
          exact substr_no_infix text delimiter start e hd hse hmin
        · exact hr5 s hmem

/-- C1: Round-trip law — for every text and every non-empty delimiter,
joining the sequence returned by `split_by_delimiter` with the delimiter
interposed between consecutive elements reconstructs the text exactly. -/
theorem split_join_roundtrip (text delimiter : Str) (hd : delimiter ≠ []) :
    (split_by_delimiter text delimiter).map (joinWith delimiter) = some text := by
  obtain ⟨segs, h1, _, h3, _, _⟩ :=
    splitLoop_spec text delimiter hd (text.length + 1) 0 (Nat.zero_le _) (by omega)
  rw [List.drop_zero] at h3
  show (splitLoop text delimiter (text.length + 1) 0).map (joinWith delimiter) = some text
  rw [h1]
  simp [h3]

/-- Witness for C1 at text "a,b" and delimiter ",". -/
theorem split_join_roundtrip_witness :
    (split_by_delimiter ['a', ',', 'b'] [',']).map (joinWith [',']) = some ['a', ',', 'b'] :=
  split_join_roundtrip ['a', ',', 'b'] [','] (by decide)

/-- C2: Segment count law — for every text and every non-empty delimiter,
the number of segments returned equals one plus the number of
non-overlapping occurrences of the delimiter in the text. -/
theorem split_segment_count (text delimiter : Str) (hd : delimiter ≠ []) :
    (split_by_delimiter text delimiter).map List.length =
      some (1 + countOcc delimiter text) := by
  obtain ⟨segs, h1, _, _, h4, _⟩ :=
    splitLoop_spec text delimiter hd (text.length + 1) 0 (Nat.zero_le _) (by omega)
  rw [List.drop_zero] at h4
  show (splitLoop text delimiter (text.length + 1) 0).map List.length =
    some (1 + countOcc delimiter text)
  rw [h1]
  simp [h4]

/-- Witness for C2 at text "a,,b" and delimiter "," (two occurrences,
three segments). -/
theorem split_segment_count_witness :
    (split_by_delimiter ['a', ',', ',', 'b'] [',']).map List.length = some 3 :=
  (split_segment_count ['a', ',', ',', 'b'] [','] (by decide)).trans (by decide)

/-- C3: Termination — for every text and every non-empty delimiter the scan
loop finishes within `text.length + 1` iterations, because every found
match advances the search position by the delimiter's length, at least
one. -/
theorem split_terminates (text delimiter : Str) (hd : delimiter ≠ []) :
    (split_by_delimiter text delimiter).isSome = true := by
  obtain ⟨segs, h1, _⟩ :=
    splitLoop_spec text delimiter hd (text.length + 1) 0 (Nat.zero_le _) (by omega)
  show (splitLoop text delimiter (text.length + 1) 0).isSome = true
  rw [h1]
  rfl

/-- Witness for C3 at text "x" and delimiter "y". -/
theorem split_terminates_witness : (split_by_delimiter ['x'] ['y']).isSome = true :=
  split_terminates ['x'] ['y'] (by decide)

/-- C4: with an empty delimiter the code exhibits the unguarded degenerate
loop instead of any of the three specified policies: `find` succeeds at
the current scan position, the position advances by the delimiter's
length, zero, and the loop re-enters in the same state, so no amount of
fuel completes it — in particular on the text "abc". -/
theorem empty_delimiter_degenerate :
    (∀ (text : Str) (fuel : Nat), splitLoop text [] fuel 0 = none) ∧
      split_by_delimiter ['a', 'b', 'c'] [] = none := by
  have key : ∀ (text : Str) (fuel : Nat), splitLoop text [] fuel 0 = none := by
    intro text fuel
    induction fuel with
    | zero => rfl
    | succ fuel ih =>
      have hfind : find text [] 0 = some 0 := by
        show findAux text [] (text.length + 1 - 0) 0 = some 0
        rw [Nat.sub_zero]
        simp [findAux, matchAt]
      simp [splitLoop, hfind, ih]
  exact ⟨key, key ['a', 'b', 'c'] (['a', 'b', 'c'].length + 1)⟩

/-- C5: No-delimiter case — if the non-empty delimiter does not occur in
the text, the result is the single-element sequence holding the text. -/
theorem split_no_occurrence (text delimiter : Str) (_hd : delimiter ≠ [])
    (hocc : ¬ delimiter <:+: text) :
    split_by_delimiter text delimiter = some [text] := by
  have hfind : find text delimiter 0 = none := by
    apply find_none_intro
    intro i _
    cases hmi : matchAt text delimiter i with
    | false => rfl
    | true => exact absurd (infix_of_matchAt text delimiter i hmi) hocc
  show splitLoop text delimiter (text.length + 1) 0 = some [text]
  simp [splitLoop, hfind, substrFrom]

/-- Witness for C5 at text "ab" and delimiter ",". -/
theorem split_no_occurrence_witness :
    split_by_delimiter ['a', 'b'] [','] = some [['a', 'b']] :=
  split_no_occurrence ['a', 'b'] [','] (by decide) (by decide)

/-- C6: the returned sequence always has at least one element, and the
empty text with delimiter "," yields exactly one empty segment. -/
theorem split_nonempty_result :
    (∀ (text delimiter : Str), delimiter ≠ [] →
        split_by_delimiter text delimiter ≠ none ∧
          split_by_delimiter text delimiter ≠ some []) ∧
      split_by_delimiter [] [','] = some [[]] := by
  constructor
  · intro text delimiter hd
    obtain ⟨segs, h1, h2, _⟩ :=
      splitLoop_spec text delimiter hd (text.length + 1) 0 (Nat.zero_le _) (by omega)
    have h1x : split_by_delimiter text delimiter = some segs := h1
    constructor
    · simp [h1x]
    · rw [h1x]
      intro h
      injection h with h
      exact h2 h
  · decide

/-- Witness for C6 at text "x" and delimiter ",". -/
theorem split_nonempty_result_witness :
    split_by_delimiter ['x'] [','] ≠ none ∧ split_by_delimiter ['x'] [','] ≠ some [] :=
  split_nonempty_result.1 ['x'] [','] (by decide)

/-- C7: empty segments are preserved at every position — consecutive,
leading, and trailing delimiter occurrences each produce an empty
segment. -/
theorem split_empty_segments_preserved :
    split_by_delimiter ['a', ',', ',', 'b'] [','] = some [['a'], [], ['b']] ∧
      split_by_delimiter [',', 'a', ','] [','] = some [[], ['a'], []] := by
  decide

/-- C8: matching is literal, left-to-right and non-overlapping — the
position found is the least matching one at or after the search start, the
loop resumes immediately after the matched copy, "a::b::c" splits on "::"
into "a", "b", "c", and on the text "aaa" the delimiter "aa" is split on
exactly once (the greedy count of "aa" in "aaa" is one, giving two
segments). -/
theorem split_nonoverlapping :
    (∀ (t p : Str) (s e : Nat), find t p s = some e →
        s ≤ e ∧ matchAt t p e = true ∧ ∀ i, s ≤ i → i < e → matchAt t p i = false) ∧
      (∀ (text delimiter : Str) (fuel start e : Nat),
        find text delimiter start = some e →
          splitLoop text delimiter (fuel + 1) start =
            (splitLoop text delimiter fuel (e + delimiter.length)).map
              (fun rest => substr text start (e - start) :: rest)) ∧
      split_by_delimiter ['a', ':', ':', 'b', ':', ':', 'c'] [':', ':'] =
        some [['a'], ['b'], ['c']] ∧
      split_by_delimiter ['a', 'a', 'a'] ['a', 'a'] = some [[], ['a']] ∧
      countOcc ['a', 'a'] ['a', 'a', 'a'] = 1 :=
  ⟨find_some, fun text delimiter fuel start e h => by simp [splitLoop, h],
    by decide, by decide, by decide⟩

/-- Witness for C8: `find` on text "ab", pattern "b", from position 0,
returns the least match position 1. -/
theorem split_nonoverlapping_witness :
    0 ≤ 1 ∧ matchAt ['a', 'b'] ['b'] 1 = true ∧
      ∀ i, 0 ≤ i → i < 1 → matchAt ['a', 'b'] ['b'] i = false :=
  split_nonoverlapping.1 ['a', 'b'] ['b'] 0 1 (by decide)

/-- C9: purity and determinism — the embedded function is a pure function
of its two arguments: equal texts and equal delimiters give equal
results. -/
theorem split_deterministic :
    ∀ (text1 text2 delim1 delim2 : Str), text1 = text2 → delim1 = delim2 →
      split_by_delimiter text1 delim1 = split_by_delimiter text2 delim2 := by
  intro t1 t2 d1 d2 h1 h2
  rw [h1, h2]

/-- Witness for C9 at text "a" and delimiter ",". -/
theorem split_deterministic_witness :
    split_by_delimiter ['a'] [','] = split_by_delimiter ['a'] [','] :=
  split_deterministic ['a'] ['a'] [','] [','] rfl rfl

/-- C10: no returned segment contains the non-empty delimiter as a
substring. -/
theorem split_segments_delimiter_free (text delimiter : Str) (hd : delimiter ≠ [])
    (segs : List Str) (hsegs : split_by_delimiter text delimiter = some segs) :
    ∀ s ∈ segs, ¬ delimiter <:+: s := by
  obtain ⟨segs2, h1, _, _, _, h5⟩ :=
    splitLoop_spec text delimiter hd (text.length + 1) 0 (Nat.zero_le _) (by omega)
  have h1x : split_by_delimiter text delimiter = some segs2 := h1
  rw [h1x] at hsegs
  injection hsegs with hs
  subst hs
  exact h5

/-- Witness for C10 at text "a,b" and delimiter ",", first segment "a". -/
theorem split_segments_delimiter_free_witness :
    ¬ [','] <:+: ['a'] :=
  split_segments_delimiter_free ['a', ',', 'b'] [','] (by decide) [['a'], ['b']]
    (by decide) ['a'] (by decide)

end AutoTextETL
